import Mathlib

/-!
Verification of the regex engine in `pkg/regex/regex.go` (repository
`mskv/regex-go`) against its natural-language specification.

The Go source is shallowly embedded below.  Strings are modelled as
`List Char` (Go's `for _, char := range str` iterates over runes).  Heap
pointers to `nfaState` values are modelled by indices into an arena list,
with `Option Nat` standing for a possibly-nil pointer.  Go runtime panics
(explicit `panic(...)` calls as well as index-out-of-range and nil-pointer
dereferences) are modelled by error values: `Except` for the preprocessor's
two deliberate panics, `Option` (with `none` = crash) elsewhere.

The matcher `match` in the source swaps its two state slices with
`currentStates = nextStates; nextStates = nextStates[:0]`, after which both
slices share one backing array; writes into `nextStates` therefore mutate
`currentStates` while it is being iterated.  The embedding reproduces this
exactly: the first input character is processed with the two distinct
backing arrays, and every later character with a single shared buffer
(`stepAliased`).  Both buffers are created with capacity 1024 in the
source; every run considered here stays far below that, so append never
reallocates and the two slices stay aliased, as modelled.
-/

namespace RegexGo

/-- Reserved operator code points, from the `const` block of the source. -/
def opGroupStart : Char := '('

/-- Group-close operator. -/
def opGroupEnd : Char := ')'

/-- The internal concatenation marker inserted by the preprocessor. -/
def opAnd : Char := '&'

/-- The alternation operator. -/
def opOr : Char := '|'

/-- The `operators` array of the source. -/
def operators : List Char := [opGroupStart, opGroupEnd, opAnd, opOr]

/-- `isOperator`: membership scan over `operators`. -/
def isOperator (char : Char) : Bool := operators.contains char

/-- `precedence`: the source scans `operatorPrecedence = [opOr, opAnd]` and
returns the last index at which the character occurs, `-1` when absent;
that is `0` for `opOr`, `1` for `opAnd`, `-1` otherwise. -/
def precedence (char : Char) : Int :=
  if char = opAnd then 1 else if char = opOr then 0 else -1

/-- The zero value of Go's `rune` type, used for fields left unset. -/
def zeroRune : Char := Char.ofNat 0

/-- The two deliberate `panic` calls of `preprocess`:
`panic("or misused")` and `panic("group mismatch")`. -/
inductive PreErr
  | orMisused
  | groupMismatch
deriving DecidableEq, Repr

/-- The loop state of `preprocess`: accumulated output plus the
group-nesting counter and the three flags. -/
structure PreSt where
  result : List Char
  groupStackCounter : Int
  wantsAnd : Bool
  canOr : Bool
  lastOr : Bool
deriving Repr

/-- One iteration of the `for _, char := range str` loop of `preprocess`. -/
def preprocessStep (st : PreSt) (char : Char) : Except PreErr PreSt :=
  if char = opGroupStart then
    .ok { result := (if st.wantsAnd then st.result ++ [opAnd] else st.result) ++ [char]
          groupStackCounter := st.groupStackCounter + 1
          wantsAnd := false
          canOr := false
          lastOr := false }
  else if char = opGroupEnd then
    if st.lastOr then .error .orMisused
    else
      .ok { result := st.result ++ [char]
            groupStackCounter := st.groupStackCounter - 1
            wantsAnd := true
            canOr := true
            lastOr := false }
  else if char = opOr then
    if st.canOr then
      .ok { result := st.result ++ [char]
            groupStackCounter := st.groupStackCounter
            wantsAnd := false
            canOr := false
            lastOr := true }
    else .error .orMisused
  else
    .ok { result := (if st.wantsAnd then st.result ++ [opAnd] else st.result) ++ [char]
          groupStackCounter := st.groupStackCounter
          wantsAnd := true
          canOr := true
          lastOr := false }

/-- The scan loop of `preprocess`. -/
def preprocessLoop (st : PreSt) : List Char → Except PreErr PreSt
  | [] => .ok st
  | char :: rest =>
    match preprocessStep st char with
    | .error e => .error e
    | .ok st2 => preprocessLoop st2 rest

/-- `preprocess`: inserts `opAnd` markers and validates; the final
`groupStackCounter != 0` check is the group-mismatch panic. -/
def preprocess (str : List Char) : Except PreErr (List Char) :=
  match preprocessLoop ⟨[], 0, false, false, false⟩ str with
  | .error e => .error e
  | .ok st => if st.groupStackCounter ≠ 0 then .error .groupMismatch else .ok st.result

/-- The `opGroupEnd` loop of the infix-to-RPN converter: pop and emit
operators until a group-open is popped and discarded.  `Peek` on an empty
stack is an index-out-of-range panic, modelled by `none`.  Returns the
emitted operators (in pop order) and the remaining stack. -/
def popUntilGroupStart : List Char → Option (List Char × List Char)
  | [] => none
  | op :: rest =>
    if op = opGroupStart then some ([], rest)
    else
      match popUntilGroupStart rest with
      | none => none
      | some (emitted, rest2) => some (op :: emitted, rest2)

/-- The default-operator loop of the converter: pop and emit while the top
of the stack has precedence ≥ the current operator's, then push the
current operator.  Returns the emitted operators and the new stack. -/
def popHigherPrecedence (char : Char) : List Char → List Char × List Char
  | [] => ([], [char])
  | op :: rest =>
    if precedence op ≥ precedence char then
      let (emitted, stack2) := popHigherPrecedence char rest
      (op :: emitted, stack2)
    else ([], char :: op :: rest)

/-- The scan loop of the source's infix-to-RPN conversion function (its
name in the source is Lean's reserved word for the third notation kind).
The stack is a list with its head as the top.  At end of input all
remaining stack contents are popped and emitted. -/
def rpnLoop (result : List Char) (opStack : List Char) : List Char → Option (List Char)
  | [] => some (result ++ opStack)
  | char :: rest =>
    if isOperator char then
      if char = opGroupStart then rpnLoop result (char :: opStack) rest
      else if char = opGroupEnd then
        match popUntilGroupStart opStack with
        | none => none
        | some (emitted, opStack2) => rpnLoop (result ++ emitted) opStack2 rest
      else
        let (emitted, opStack2) := popHigherPrecedence char opStack
        rpnLoop (result ++ emitted) opStack2 rest
    else rpnLoop (result ++ [char]) opStack rest

/-- Infix-to-RPN conversion (the source's second pipeline stage). -/
def rpn (str : List Char) : Option (List Char) := rpnLoop [] [] str

/-- `nfaStateKindChar` from the source's kind enumeration. -/
def nfaStateKindChar : Nat := 0

/-- `nfaStateKindSplit` from the source's kind enumeration. -/
def nfaStateKindSplit : Nat := 1

/-- `nfaStateKindMatch` from the source's kind enumeration. -/
def nfaStateKindMatch : Nat := 2

/-- `nfaState`: fields exactly as in the source; `out1`/`out2` are
possibly-nil pointers, modelled as optional arena indices.  Go zero values
(`char` = 0, nil pointers) are written explicitly at construction. -/
structure NfaState where
  char : Char
  kind : Nat
  out1 : Option Nat
  out2 : Option Nat
deriving DecidableEq, Repr

/-- `nfaFrag`: a start state plus the list of dangling out-arrows.  In the
source `outs` holds pointers `**nfaState`; every such pointer is the
address of the `out1` field of a char-kind state, so it is modelled by
that state's arena index. -/
structure NfaFrag where
  start : Nat
  outs : List Nat
deriving DecidableEq, Repr

/-- Writing through one dangling arrow: set `out1` of state `i`.  (The
builder only ever passes indices it has allocated, so the out-of-bounds
branch is never taken.) -/
def setOut1 (arena : List NfaState) (i : Nat) (target : Nat) : List NfaState :=
  match arena[i]? with
  | none => arena
  | some s => arena.set i { s with out1 := some target }

/-- `connectNfaFrag`: hook up all dangling arrows of a fragment to the
given state. -/
def connectNfaFrag (arena : List NfaState) (frag : NfaFrag) (target : Nat) : List NfaState :=
  frag.outs.foldl (fun a i => setOut1 a i target) arena

/-- The scan loop of `nfa`: Thompson construction over the RPN stream.
The fragment stack is a list with its head as the top; `Pop` on an empty
stack is an index-out-of-range panic, modelled by `none`. -/
def nfaLoop (arena : List NfaState) (fragStack : List NfaFrag) :
    List Char → Option (List NfaState × List NfaFrag)
  | [] => some (arena, fragStack)
  | char :: rest =>
    if char = opAnd then
      match fragStack with
      | frag2 :: frag1 :: stackRest =>
        let arena2 := connectNfaFrag arena frag1 frag2.start
        nfaLoop arena2 ({ start := frag1.start, outs := frag2.outs } :: stackRest) rest
      | _ => none
    else if char = opOr then
      match fragStack with
      | frag2 :: frag1 :: stackRest =>
        let idx := arena.length
        let arena2 := arena ++
          [{ char := zeroRune, kind := nfaStateKindSplit
             out1 := some frag1.start, out2 := some frag2.start }]
        nfaLoop arena2 ({ start := idx, outs := frag1.outs ++ frag2.outs } :: stackRest) rest
      | _ => none
    else
      let idx := arena.length
      let arena2 := arena ++
        [{ char := char, kind := nfaStateKindChar, out1 := none, out2 := none }]
      nfaLoop arena2 ({ start := idx, outs := [idx] } :: fragStack) rest

/-- `nfa`: run the construction loop, then pop the final fragment (a panic
when the stack is empty — leftover fragments below the top are silently
ignored, as in the source), allocate the match state and wire the final
fragment's dangling arrows to it. -/
def nfa (str : List Char) : Option (List NfaState × Nat) :=
  match nfaLoop [] [] str with
  | none => none
  | some (arena, fragStack) =>
    match fragStack with
    | [] => none
    | result :: _ =>
      let matchIdx := arena.length
      let arena2 := arena ++
        [{ char := zeroRune, kind := nfaStateKindMatch, out1 := none, out2 := none }]
      some (connectNfaFrag arena2 result matchIdx, result.start)

/-- How a `Compile` call can fail: the two deliberate preprocessor panics,
or a runtime crash (index out of range / nil dereference) in a later
stage. -/
inductive CompileErr
  | orMisused
  | groupMismatch
  | crashed
deriving DecidableEq, Repr

/-- `Compile`: the three-stage pipeline `nfa(postfix(preprocess(str)))`,
returning the arena together with the start-state index. -/
def Compile (str : List Char) : Except CompileErr (List NfaState × Nat) :=
  match preprocess str with
  | .error .orMisused => .error .orMisused
  | .error .groupMismatch => .error .groupMismatch
  | .ok marked =>
    match rpn marked with
    | none => .error .crashed
    | some stream =>
      match nfa stream with
      | none => .error .crashed
      | some automaton => .ok automaton

/-- Arena of the compiled automaton (empty list when compilation failed);
projection used to state concrete theorems. -/
def compiledArena (str : List Char) : List NfaState :=
  match Compile str with
  | .ok (arena, _) => arena
  | .error _ => []

/-- Start-state index of the compiled automaton (0 when compilation
failed). -/
def compiledStart (str : List Char) : Nat :=
  match Compile str with
  | .ok (_, start) => start
  | .error _ => 0

/-- `appendState` for a state list with its own backing array: append the
state, flattening split states by recursing into both children.  `none`
models the nil-pointer dereference panic the source hits when called on a
nil pointer (and is also returned on fuel exhaustion; the callers pass
fuel `arena.length + 1`, which covers every automaton the builder
produces, since a split's children always have smaller indices). -/
def appendState (arena : List NfaState) : Nat → List Nat → Option Nat → Option (List Nat)
  | 0, _, _ => none
  | _ + 1, _, none => none
  | fuel + 1, stateList, some i =>
    match arena[i]? with
    | none => none
    | some s =>
      if s.kind = nfaStateKindSplit then
        match appendState arena fuel stateList s.out1 with
        | none => none
        | some stateList2 => appendState arena fuel stateList2 s.out2
      else some (stateList ++ [i])

/-- One slice-append into the shared backing array: writing at position
`pos` overwrites an existing slot or extends the buffer by one (the
source's append never reallocates in the runs considered, see the header
comment). -/
def writeAt (buf : List Nat) (pos : Nat) (v : Nat) : List Nat :=
  if pos < buf.length then buf.set pos v else buf ++ [v]

/-- `appendState` as executed after the first input character, when
`nextStates` shares its backing array with `currentStates`: the state is
written into the shared buffer at write position `w`. -/
def appendStateAl (arena : List NfaState) :
    Nat → List Nat → Nat → Option Nat → Option (List Nat × Nat)
  | 0, _, _, _ => none
  | _ + 1, _, _, none => none
  | fuel + 1, buf, w, some i =>
    match arena[i]? with
    | none => none
    | some s =>
      if s.kind = nfaStateKindSplit then
        match appendStateAl arena fuel buf w s.out1 with
        | none => none
        | some (buf2, w2) => appendStateAl arena fuel buf2 w2 s.out2
      else some (writeAt buf w i, w + 1)

/-- The inner loop of `match` for the first input character, while
`currentStates` (read) and `nextStates` (written) still have distinct
backing arrays: `nextList` accumulates `nextStates`. -/
def stepFreshLoop (arena : List NfaState) (fuel : Nat) (char : Char) :
    List Nat → List Nat → Option (List Nat)
  | [], nextList => some nextList
  | i :: rest, nextList =>
    match arena[i]? with
    | none => none
    | some s =>
      if s.char = char then
        match appendState arena fuel nextList s.out1 with
        | none => none
        | some nextList2 => stepFreshLoop arena fuel char rest nextList2
      else stepFreshLoop arena fuel char rest nextList

/-- Processing of the first input character over the whole active set. -/
def stepFresh (arena : List NfaState) (fuel : Nat) (current : List Nat) (char : Char) :
    Option (List Nat) :=
  stepFreshLoop arena fuel char current []

/-- The inner loop of `match` for every later input character, when both
slices share the buffer `buf`: read index `i` runs over the fixed length
of `currentStates` while appends write the same buffer at position `w`.
`remaining` counts the reads still to do. -/
def stepAlLoop (arena : List NfaState) (fuel : Nat) (char : Char) :
    Nat → Nat → List Nat → Nat → Option (List Nat × Nat)
  | 0, _, buf, w => some (buf, w)
  | remaining + 1, i, buf, w =>
    match buf[i]? with
    | none => none
    | some stateIdx =>
      match arena[stateIdx]? with
      | none => none
      | some s =>
        if s.char = char then
          match appendStateAl arena fuel buf w s.out1 with
          | none => none
          | some (buf2, w2) => stepAlLoop arena fuel char remaining (i + 1) buf2 w2
        else stepAlLoop arena fuel char remaining (i + 1) buf w

/-- One aliased step: process one input character over `currentStates` =
the first `len` entries of the shared buffer, returning the new buffer and
the new length. -/
def stepAliased (arena : List NfaState) (fuel : Nat) (buf : List Nat) (len : Nat)
    (char : Char) : Option (List Nat × Nat) :=
  stepAlLoop arena fuel char len 0 buf 0

/-- The outer loop of `match` from the second input character on. -/
def matchLoop (arena : List NfaState) (fuel : Nat) :
    List Char → List Nat → Nat → Option (List Nat × Nat)
  | [], buf, len => some (buf, len)
  | char :: rest, buf, len =>
    match stepAliased arena fuel buf len char with
    | none => none
    | some (buf2, w) => matchLoop arena fuel rest buf2 w

/-- The final scan of `match`: does the active set contain the match
state? -/
def containsMatchState (arena : List NfaState) (current : List Nat) : Bool :=
  current.any fun i =>
    match arena[i]? with
    | some s => s.kind == nfaStateKindMatch
    | none => false

/-- `match` from the source: initialize the active set to the flattening
of the start state; process the first character with distinct backing
arrays; after `currentStates = nextStates; nextStates = nextStates[:0]`
both slices share one backing array, so every later character runs the
aliased step; finally scan the active set for the match state.  `none`
models a runtime panic. -/
def matchNfa (arena : List NfaState) (start : Nat) (str : List Char) : Option Bool :=
  let fuel := arena.length + 1
  match appendState arena fuel [] (some start) with
  | none => none
  | some current0 =>
    match str with
    | [] => some (containsMatchState arena current0)
    | char1 :: rest =>
      match stepFresh arena fuel current0 char1 with
      | none => none
      | some next1 =>
        match matchLoop arena fuel rest next1 next1.length with
        | none => none
        | some (buf, len) => some (containsMatchState arena (buf.take len))

/-- `Match`, the exported entry point, on a compiled automaton. -/
def Match (automaton : List NfaState × Nat) (str : List Char) : Option Bool :=
  matchNfa automaton.1 automaton.2 str

/-- Same run as `matchLoop`, additionally recording the active set left
after each step (the first `w` buffer entries). -/
def matchLoopTrace (arena : List NfaState) (fuel : Nat) :
    List Char → List Nat → Nat → Option (List (List Nat))
  | [], _, _ => some []
  | char :: rest, buf, len =>
    match stepAliased arena fuel buf len char with
    | none => none
    | some (buf2, w) =>
      match matchLoopTrace arena fuel rest buf2 w with
      | none => none
      | some sets => some (buf2.take w :: sets)

/-- Same run as `matchNfa`, returning the sequence of active state sets:
the initial set followed by the set after each input character. -/
def matchTrace (arena : List NfaState) (start : Nat) (str : List Char) :
    Option (List (List Nat)) :=
  let fuel := arena.length + 1
  match appendState arena fuel [] (some start) with
  | none => none
  | some current0 =>
    match str with
    | [] => some [current0]
    | char1 :: rest =>
      match stepFresh arena fuel current0 char1 with
      | none => none
      | some next1 =>
        match matchLoopTrace arena fuel rest next1 next1.length with
        | none => none
        | some sets => some (current0 :: next1 :: sets)

/-- Modelled from the spec: the abstract syntax of the restricted pattern
grammar (literal code points, concatenation, alternation), used to state
what language a pattern denotes. -/
inductive Reg
  | chr (c : Char)
  | cat (r1 r2 : Reg)
  | alt (r1 r2 : Reg)
deriving DecidableEq, Repr

/-- All ways to split a string into a prefix/suffix pair. -/
def splitsOf : List Char → List (List Char × List Char)
  | [] => [([], [])]
  | c :: cs => ([], c :: cs) :: (splitsOf cs).map fun p => (c :: p.1, p.2)

/-- Modelled from the spec: membership of a string in the language denoted
by a pattern — a literal denotes its one-character string, concatenation
the pairwise concatenations, alternation the union. -/
def regMatch : Reg → List Char → Bool
  | .chr c, s => s == [c]
  | .cat r1 r2, s => (splitsOf s).any fun p => regMatch r1 p.1 && regMatch r2 p.2
  | .alt r1 r2, s => regMatch r1 s || regMatch r2 s

/-- Rendering of a pattern syntax tree back to concrete pattern text:
alternation children of a concatenation are wrapped in a group, matching
the spec's precedence (concatenation binds tighter). -/
def regToPattern : Reg → List Char
  | .chr c => [c]
  | .alt r1 r2 => regToPattern r1 ++ [opOr] ++ regToPattern r2
  | .cat r1 r2 =>
    (match r1 with
     | .alt a b => [opGroupStart] ++ (regToPattern a ++ [opOr] ++ regToPattern b) ++ [opGroupEnd]
     | .chr c => [c]
     | .cat a b => regToPattern (Reg.cat a b)) ++
    (match r2 with
     | .alt a b => [opGroupStart] ++ (regToPattern a ++ [opOr] ++ regToPattern b) ++ [opGroupEnd]
     | .chr c => [c]
     | .cat a b => regToPattern (Reg.cat a b))

/-- Net group nesting of a raw pattern: `+1` per group-open, `-1` per
group-close, independent of the preprocessor's scan. -/
def groupBalance : List Char → Int
  | [] => 0
  | c :: cs => (if c = opGroupStart then 1 else if c = opGroupEnd then -1 else 0) + groupBalance cs

/-- An adjacent pair the preprocessor rejects as alternation misuse: an
alternation right after a group-open or another alternation, or a
group-close right after an alternation.  The "previous character" of the
first pattern position behaves like a group-open. -/
def badPair (x y : Char) : Bool :=
  (y == opOr && (x == opGroupStart || x == opOr)) || (y == opGroupEnd && x == opOr)

/-- Scan for an alternation-misuse pair, given the character preceding the
remaining input. -/
def badFrom (prev : Char) : List Char → Bool
  | [] => false
  | c :: cs => badPair prev c || badFrom c cs

/-- A raw pattern contains an alternation in an invalid position: at the
start, right after a group-open, right after another alternation, or right
before a group-close.  (A trailing alternation at end of input is *not*
such a position.) -/
def hasOrMisuse (p : List Char) : Bool := badFrom opGroupStart p

/-- Arena index `i` denotes a state that is not a split state (the
"flattened" shape the matcher's active sets are claimed to keep). -/
def FlatState (arena : List NfaState) (i : Nat) : Prop :=
  ∃ s, arena[i]? = some s ∧ s.kind ≠ nfaStateKindSplit

/-- The first `w` slots of a shared buffer all hold indices of non-split
states. -/
def PrefixFlat (arena : List NfaState) (buf : List Nat) (w : Nat) : Prop :=
  ∀ j, j < w → ∃ v, buf[j]? = some v ∧ FlatState arena v

/-- A state arena all of whose kinds come from the source's three-value
kind enumeration (true of every arena the builder produces). -/
def WellKinded (arena : List NfaState) : Prop :=
  ∀ s ∈ arena, s.kind = nfaStateKindChar ∨ s.kind = nfaStateKindSplit ∨
    s.kind = nfaStateKindMatch

/-- Pattern syntax tree of `"ab(c|d)|abe"`, used to exhibit the language
membership the matcher gets wrong. -/
def c1Ast : Reg :=
  .alt (.cat (.cat (.chr 'a') (.chr 'b')) (.alt (.chr 'c') (.chr 'd')))
       (.cat (.cat (.chr 'a') (.chr 'b')) (.chr 'e'))

/-- C1: the claim "`match(compile(p), s)` is true iff `s` is in the
language of `p`" fails on the code: the matcher reuses one backing array
for `currentStates` and `nextStates`, so a split expansion written early
in a step overwrites active states not yet read.  For `p = "ab(c|d)|abe"`
the eight example behaviors of `compile("a(b|cd|ef)g")` claimed by the
spec do hold, yet `"abe"` is in the language of `p` (witnessed by the
syntax tree `c1Ast`, which renders to exactly `p`) while the compiled
matcher returns `false` on it. -/
theorem c1_match_of_abe_disagrees_with_language :
    regToPattern c1Ast = "ab(c|d)|abe".toList ∧
    regMatch c1Ast "abe".toList = true ∧
    Compile "ab(c|d)|abe".toList =
      .ok (compiledArena "ab(c|d)|abe".toList, compiledStart "ab(c|d)|abe".toList) ∧
    matchNfa (compiledArena "ab(c|d)|abe".toList) (compiledStart "ab(c|d)|abe".toList)
      "abe".toList = some false ∧
    matchNfa (compiledArena "ab(c|d)|abe".toList) (compiledStart "ab(c|d)|abe".toList)
      "abc".toList = some true ∧
    matchNfa (compiledArena "ab(c|d)|abe".toList) (compiledStart "ab(c|d)|abe".toList)
      "abd".toList = some true ∧
    Compile "a(b|cd|ef)g".toList =
      .ok (compiledArena "a(b|cd|ef)g".toList, compiledStart "a(b|cd|ef)g".toList) ∧
    matchNfa (compiledArena "a(b|cd|ef)g".toList) (compiledStart "a(b|cd|ef)g".toList)
      "abg".toList = some true ∧
    matchNfa (compiledArena "a(b|cd|ef)g".toList) (compiledStart "a(b|cd|ef)g".toList)
      "acdg".toList = some true ∧
    matchNfa (compiledArena "a(b|cd|ef)g".toList) (compiledStart "a(b|cd|ef)g".toList)
      "aefg".toList = some true ∧
    matchNfa (compiledArena "a(b|cd|ef)g".toList) (compiledStart "a(b|cd|ef)g".toList)
      "efg".toList = some false ∧
    matchNfa (compiledArena "a(b|cd|ef)g".toList) (compiledStart "a(b|cd|ef)g".toList)
      "aef".toList = some false ∧
    matchNfa (compiledArena "a(b|cd|ef)g".toList) (compiledStart "a(b|cd|ef)g".toList)
      "acd".toList = some false ∧
    matchNfa (compiledArena "a(b|cd|ef)g".toList) (compiledStart "a(b|cd|ef)g".toList)
      "ab".toList = some false ∧
    matchNfa (compiledArena "a(b|cd|ef)g".toList) (compiledStart "a(b|cd|ef)g".toList)
      "ef".toList = some false :=
  ⟨rfl, rfl, rfl, rfl, rfl, rfl, rfl, rfl, rfl, rfl, rfl, rfl, rfl, rfl, rfl⟩

/-- C2: matching is not total.  A match state carries the zero rune as its
`char` and a nil `out1`; when the input contains U+0000 while the match
state is active, the simulation takes the zero rune for a consumable
character and dereferences the nil successor.  `compile("a")` matches
`"a"`, but on input `"a\x00"` the run crashes (`none`). -/
theorem c2_match_crashes_on_nul_input :
    Compile "a".toList = .ok (compiledArena "a".toList, compiledStart "a".toList) ∧
    matchNfa (compiledArena "a".toList) (compiledStart "a".toList) ['a'] = some true ∧
    matchNfa (compiledArena "a".toList) (compiledStart "a".toList) ['a', zeroRune] = none :=
  ⟨rfl, rfl, rfl⟩

/-- C3 counterexample: `"a|"` passes the preprocessing stage (the
preprocessor only rejects an alternation *followed* by something invalid,
never a trailing one), yet `compile("a|")` does not return an automaton —
it crashes, refuting "only preprocessing can make compile fail". -/
theorem c3_counterexample_trailing_alternation :
    preprocess "a|".toList = .ok "a|".toList ∧
    Compile "a|".toList = .error .crashed :=
  ⟨rfl, rfl⟩

/-- C3 amended: preprocessing success does not guarantee that the later
stages complete.  `"a|"` passes preprocessing and RPN conversion and then
crashes in the automaton builder (fragment-stack underflow at the
alternation), and the empty pattern likewise reaches the automaton
builder and crashes there; compile can therefore fail outside
preprocessing. -/
theorem c3_amended_later_stages_can_fail :
    preprocess "a|".toList = .ok ['a', '|'] ∧
    rpn ['a', '|'] = some ['a', '|'] ∧
    nfa ['a', '|'] = none ∧
    Compile "a|".toList = .error .crashed ∧
    preprocess [] = .ok [] ∧
    Compile [] = .error .crashed :=
  ⟨rfl, rfl, rfl, rfl, rfl, rfl⟩

/-- C6: the claimed step bound fails.  `compile("(a|a|a|a)(b|b|b|b)")`
builds an automaton of 15 states, but after the first input character of
`"a"` the active state set holds 16 entries: the four copies of the
second group's split expansion are accumulated without deduplication, so
an active set can exceed the number of automaton states. -/
theorem c6_active_set_exceeds_state_count :
    Compile "(a|a|a|a)(b|b|b|b)".toList =
      .ok (compiledArena "(a|a|a|a)(b|b|b|b)".toList,
           compiledStart "(a|a|a|a)(b|b|b|b)".toList) ∧
    (compiledArena "(a|a|a|a)(b|b|b|b)".toList).length = 15 ∧
    (matchTrace (compiledArena "(a|a|a|a)(b|b|b|b)".toList)
        (compiledStart "(a|a|a|a)(b|b|b|b)".toList) ['a']).map
      (fun trace => trace.map List.length) = some [4, 16] ∧
    15 < 16 :=
  ⟨rfl, rfl, rfl, by decide⟩

/-- C7: concatenation binds tighter than alternation: the automaton of
`"ab|c"` accepts `"ab"` and `"c"` and rejects `"a"`, `"b"`, `"bc"`. -/
theorem c7_concatenation_binds_tighter :
    Compile "ab|c".toList = .ok (compiledArena "ab|c".toList, compiledStart "ab|c".toList) ∧
    matchNfa (compiledArena "ab|c".toList) (compiledStart "ab|c".toList) "ab".toList = some true ∧
    matchNfa (compiledArena "ab|c".toList) (compiledStart "ab|c".toList) "c".toList = some true ∧
    matchNfa (compiledArena "ab|c".toList) (compiledStart "ab|c".toList) "a".toList = some false ∧
    matchNfa (compiledArena "ab|c".toList) (compiledStart "ab|c".toList) "b".toList = some false ∧
    matchNfa (compiledArena "ab|c".toList) (compiledStart "ab|c".toList) "bc".toList = some false :=
  ⟨rfl, rfl, rfl, rfl, rfl, rfl⟩

/-- C9: the empty pattern passes preprocessing and RPN conversion with an
empty stream and then crashes in the automaton builder popping the final
fragment from an empty stack — with neither the group-mismatch nor the
alternation-misuse condition. -/
theorem c9_empty_pattern_crashes_in_builder :
    preprocess [] = .ok [] ∧
    rpn [] = some [] ∧
    nfa [] = none ∧
    Compile [] = .error .crashed ∧
    Compile [] ≠ .error .groupMismatch ∧
    Compile [] ≠ .error .orMisused :=
  ⟨rfl, rfl, rfl, rfl,
    fun h => CompileErr.noConfusion (Except.error.inj
      (show Except.error CompileErr.crashed = Except.error CompileErr.groupMismatch from h)),
    fun h => CompileErr.noConfusion (Except.error.inj
      (show Except.error CompileErr.crashed = Except.error CompileErr.orMisused from h))⟩

/-- C10 counterexample: `compile("a&b")` does not "silently interpret
each '&' as concatenation" — it crashes (fragment-stack underflow in the
automaton builder) instead of producing an automaton. -/
theorem c10_counterexample_ampersand_crashes :
    Compile "a&b".toList = .error .crashed :=
  rfl

/-- C10 amended: the concatenation marker is the ordinary code point
`'&'`.  The preprocessor treats a pattern `'&'` as an ordinary operand
(inserting markers around it, `"a&b"` becomes `"a&&&b"`), the RPN stage
then treats every `'&'` as the concatenation operator (`"a&&b&"`), and the
arity mismatch makes the automaton builder underflow its fragment stack:
compile crashes rather than producing an automaton that could match a
literal `'&'`. -/
theorem c10_amended_ampersand_is_operator :
    preprocess "a&b".toList = .ok "a&&&b".toList ∧
    rpn "a&&&b".toList = some "a&&b&".toList ∧
    nfa "a&&b&".toList = none ∧
    Compile "a&b".toList = .error .crashed :=
  ⟨rfl, rfl, rfl, rfl⟩

/-- The preprocessor scan either raises the alternation-misuse panic or
completes with the nesting counter advanced by the net group balance of
the consumed characters. -/
theorem preprocessLoop_counter (chars : List Char) :
    ∀ st : PreSt, preprocessLoop st chars = .error .orMisused ∨
      ∃ st2, preprocessLoop st chars = .ok st2 ∧
        st2.groupStackCounter = st.groupStackCounter + groupBalance chars := by
  induction chars with
  | nil => exact fun st => Or.inr ⟨st, rfl, by simp [groupBalance]⟩
  | cons c cs ih =>
    intro st
    by_cases h1 : c = opGroupStart
    · simp only [preprocessLoop, preprocessStep, if_pos h1]
      rcases ih _ with he | ⟨st2, hk, h3⟩
      · exact Or.inl he
      · refine Or.inr ⟨st2, hk, ?_⟩
        have hb : groupBalance (c :: cs) = 1 + groupBalance cs := by
          simp only [groupBalance, if_pos h1]
        rw [h3, hb]
        show st.groupStackCounter + 1 + groupBalance cs =
          st.groupStackCounter + (1 + groupBalance cs)
        omega
    · by_cases h2 : c = opGroupEnd
      · by_cases hl : st.lastOr
        · simp only [preprocessLoop, preprocessStep, if_neg h1, if_pos h2, if_pos hl]
          exact Or.inl trivial
        · simp only [preprocessLoop, preprocessStep, if_neg h1, if_pos h2, if_neg hl]
          rcases ih _ with he | ⟨st2, hk, h3⟩
          · exact Or.inl he
          · refine Or.inr ⟨st2, hk, ?_⟩
            have hb : groupBalance (c :: cs) = -1 + groupBalance cs := by
              simp only [groupBalance, if_neg h1, if_pos h2]
            rw [h3, hb]
            show st.groupStackCounter - 1 + groupBalance cs =
              st.groupStackCounter + (-1 + groupBalance cs)
            omega
      · have hb : groupBalance (c :: cs) = groupBalance cs := by
          simp only [groupBalance, if_neg h1, if_neg h2]
          omega
        by_cases h3 : c = opOr
        · by_cases hc : st.canOr
          · simp only [preprocessLoop, preprocessStep, if_neg h1, if_neg h2, if_pos h3,
              if_pos hc]
            rcases ih _ with he | ⟨st2, hk, hk3⟩
            · exact Or.inl he
            · refine Or.inr ⟨st2, hk, ?_⟩
              rw [hk3, hb]
          · simp only [preprocessLoop, preprocessStep, if_neg h1, if_neg h2, if_pos h3,
              if_neg hc]
            exact Or.inl trivial
        · simp only [preprocessLoop, preprocessStep, if_neg h1, if_neg h2, if_neg h3]
          rcases ih _ with he | ⟨st2, hk, hk3⟩
          · exact Or.inl he
          · refine Or.inr ⟨st2, hk, ?_⟩
            rw [hk3, hb]

/-- The group-mismatch panic fires exactly when the scan completes without
the alternation-misuse panic and the net group balance of the pattern is
non-zero. -/
theorem preprocess_groupMismatch_iff (p : List Char) :
    preprocess p = .error .groupMismatch ↔
      (preprocess p ≠ .error .orMisused ∧ groupBalance p ≠ 0) := by
  unfold preprocess
  rcases preprocessLoop_counter p ⟨[], 0, false, false, false⟩ with he | ⟨st2, h2, h3⟩
  · rw [he]
    simp
  · have h4 : st2.groupStackCounter = groupBalance p := by
      rw [h3]
      show (0 : Int) + groupBalance p = groupBalance p
      omega
    simp only [h2]
    by_cases hz : st2.groupStackCounter ≠ 0
    · rw [if_pos hz]
      constructor
      · exact fun _ => ⟨by simp, h4 ▸ hz⟩
      · exact fun _ => rfl
    · rw [if_neg hz]
      push_neg at hz
      constructor
      · intro h
        exact Except.noConfusion h
      · rintro ⟨-, hb⟩
        exact absurd (h4 ▸ hz) hb

/-- `Compile` reports the group-mismatch panic exactly when preprocessing
does: no later stage produces it. -/
theorem Compile_error_groupMismatch (p : List Char) :
    Compile p = .error .groupMismatch ↔ preprocess p = .error .groupMismatch := by
  unfold Compile
  rcases hp : preprocess p with e | marked
  · cases e <;> simp
  · rcases hr : rpn marked with - | pf
    · simp [hp, hr]
    · rcases hn : nfa pf with - | automaton <;> simp [hp, hr, hn]

/-- `Compile` reports the alternation-misuse panic exactly when
preprocessing does: no later stage produces it. -/
theorem Compile_error_orMisused (p : List Char) :
    Compile p = .error .orMisused ↔ preprocess p = .error .orMisused := by
  unfold Compile
  rcases hp : preprocess p with e | marked
  · cases e <;> simp
  · rcases hr : rpn marked with - | pf
    · simp [hp, hr]
    · rcases hn : nfa pf with - | automaton <;> simp [hp, hr, hn]

/-- C4 amended: compile fails with `GroupMismatch` exactly when the
nesting counter — the net group balance of the pattern — is non-zero at
end of input and no alternation-misuse panic fired earlier; a group-close
met while the counter is already zero is *not* detected at that point (see
the counterexample `")("`).  In particular `compile("(ab")` and
`compile("ab)")` fail with `GroupMismatch`. -/
theorem c4_amended_group_mismatch_iff_final_counter :
    (∀ p : List Char, Compile p = .error .groupMismatch ↔
      (Compile p ≠ .error .orMisused ∧ groupBalance p ≠ 0)) ∧
    Compile "(ab".toList = .error .groupMismatch ∧
    Compile "ab)".toList = .error .groupMismatch := by
  refine ⟨fun p => ?_, rfl, rfl⟩
  rw [Compile_error_groupMismatch, preprocess_groupMismatch_iff]
  simp only [ne_eq, Compile_error_orMisused]

/-- C4 counterexample: `")("` has a group-close with the counter at zero,
but the counter ends balanced, so preprocessing accepts it (emitting
`")&("`); compile then crashes in the RPN stage (`Peek` on an empty
operator stack) — it does not fail with `GroupMismatch` as claimed. -/
theorem c4_counterexample_rebalanced_pattern :
    preprocess ")(".toList = .ok ")&(".toList ∧
    rpn ")&(".toList = none ∧
    Compile ")(".toList = .error .crashed ∧
    Compile ")(".toList ≠ .error .groupMismatch :=
  ⟨rfl, rfl, rfl,
    fun h => CompileErr.noConfusion (Except.error.inj
      (show Except.error CompileErr.crashed = Except.error CompileErr.groupMismatch from h))⟩

/-- The preprocessor scan raises the alternation-misuse panic exactly when
the remaining input, read with `prev` as the character before it, contains
an alternation in an invalid position.  The hypotheses say the two
validity flags are the functions of the previous character that the scan
maintains (the start of the pattern behaves like a group-open). -/
theorem preprocessLoop_orMisused_iff (chars : List Char) :
    ∀ (st : PreSt) (prev : Char),
      st.canOr = !(prev == opGroupStart || prev == opOr) →
      st.lastOr = (prev == opOr) →
      (preprocessLoop st chars = .error .orMisused ↔ badFrom prev chars = true) := by
  induction chars with
  | nil =>
    intro st prev hco hlo
    simp [preprocessLoop, badFrom]
  | cons c cs ih =>
    intro st prev hco hlo
    have hbf : badFrom prev (c :: cs) = (badPair prev c || badFrom c cs) := rfl
    by_cases h1 : c = opGroupStart
    · simp only [preprocessLoop, preprocessStep, if_pos h1]
      rw [ih _ opGroupStart rfl rfl, hbf, h1]
      have hbp : badPair prev opGroupStart = false := rfl
      rw [hbp]
      simp
    · by_cases h2 : c = opGroupEnd
      · by_cases hl : st.lastOr
        · simp only [preprocessLoop, preprocessStep, if_neg h1, if_pos h2, if_pos hl]
          have hprev : (prev == opOr) = true := by rw [← hlo]; exact hl
          have hbp : badPair prev c = true := by
            rw [h2]
            show ((opGroupEnd == opOr && (prev == opGroupStart || prev == opOr)) ||
              (opGroupEnd == opGroupEnd && (prev == opOr))) = true
            rw [hprev]
            rfl
          rw [hbf, hbp]
          simp
        · simp only [preprocessLoop, preprocessStep, if_neg h1, if_pos h2, if_neg hl]
          rw [ih _ opGroupEnd rfl rfl, hbf, h2]
          have h5 : st.lastOr = false := by rwa [Bool.not_eq_true] at hl
          have hprev : (prev == opOr) = false := by rw [← hlo]; exact h5
          have hbp : badPair prev opGroupEnd = false := by
            show ((opGroupEnd == opOr && (prev == opGroupStart || prev == opOr)) ||
              (opGroupEnd == opGroupEnd && (prev == opOr))) = false
            rw [hprev]
            rfl
          rw [hbp]
          simp
      · by_cases h3 : c = opOr
        · by_cases hc : st.canOr
          · simp only [preprocessLoop, preprocessStep, if_neg h1, if_neg h2, if_pos h3,
              if_pos hc]
            rw [ih _ opOr rfl rfl, hbf, h3]
            have h6 : (!(prev == opGroupStart || prev == opOr)) = true := by
              rw [← hco]; exact hc
            have hprev : (prev == opGroupStart || prev == opOr) = false := by
              rwa [Bool.not_eq_true'] at h6
            have hbp : badPair prev opOr = false := by
              show ((opOr == opOr && (prev == opGroupStart || prev == opOr)) ||
                (opOr == opGroupEnd && (prev == opOr))) = false
              rw [hprev]
              rfl
            rw [hbp]
            simp
          · simp only [preprocessLoop, preprocessStep, if_neg h1, if_neg h2, if_pos h3,
              if_neg hc]
            have h5 : st.canOr = false := by rwa [Bool.not_eq_true] at hc
            have h6 : (!(prev == opGroupStart || prev == opOr)) = false := by
              rw [← hco]; exact h5
            have hprev : (prev == opGroupStart || prev == opOr) = true := by
              rwa [Bool.not_eq_false'] at h6
            have hbp : badPair prev c = true := by
              rw [h3]
              show ((opOr == opOr && (prev == opGroupStart || prev == opOr)) ||
                (opOr == opGroupEnd && (prev == opOr))) = true
              rw [hprev]
              rfl
            rw [hbf, hbp]
            simp
        · simp only [preprocessLoop, preprocessStep, if_neg h1, if_neg h2, if_neg h3]
          have hc1 : (c == opOr) = false := beq_eq_false_iff_ne.mpr h3
          have hc2 : (c == opGroupEnd) = false := beq_eq_false_iff_ne.mpr h2
          have hc3 : (c == opGroupStart) = false := beq_eq_false_iff_ne.mpr h1
          have hbp : badPair prev c = false := by
            show ((c == opOr && (prev == opGroupStart || prev == opOr)) ||
              (c == opGroupEnd && (prev == opOr))) = false
            rw [hc1, hc2]
            rfl
          rw [ih _ c (by rw [hc3, hc1]; rfl) (by rw [hc1]), hbf, hbp]
          simp

/-- Preprocessing fails with the alternation-misuse panic exactly when the
raw pattern has an alternation at the start, right after a group-open,
right after another alternation, or right before a group-close. -/
theorem preprocess_orMisused_iff (p : List Char) :
    preprocess p = .error .orMisused ↔ hasOrMisuse p = true := by
  unfold preprocess hasOrMisuse
  have h := preprocessLoop_orMisused_iff p ⟨[], 0, false, false, false⟩ opGroupStart rfl rfl
  rcases hres : preprocessLoop ⟨[], 0, false, false, false⟩ p with e | st2
  · rw [hres] at h
    simp only [hres]
    cases e
    · exact ⟨fun _ => h.mp rfl, fun _ => rfl⟩
    · constructor
      · intro hcontra
        exact absurd hcontra (by simp)
      · intro hb
        exact absurd (h.mpr hb) (by simp)
  · rw [hres] at h
    simp only [hres]
    constructor
    · intro hcontra
      split at hcontra
      · exact absurd hcontra (by simp)
      · exact absurd hcontra (by simp)
    · intro hb
      exact absurd (h.mpr hb) (by simp)

/-- C5 amended: compile fails with `AlternationMisuse` exactly when
alternation appears at the start of the pattern, immediately after a
group-open, immediately after another alternation, or immediately before a
group-close — but *not* when it is the last token of the pattern (see the
counterexample `"a|"`).  In particular `compile("|ab")`,
`compile("a||b")` and `compile("(|a)")` all fail with
`AlternationMisuse`. -/
theorem c5_amended_alternation_misuse_iff :
    (∀ p : List Char, Compile p = .error .orMisused ↔ hasOrMisuse p = true) ∧
    Compile "|ab".toList = .error .orMisused ∧
    Compile "a||b".toList = .error .orMisused ∧
    Compile "(|a)".toList = .error .orMisused := by
  refine ⟨fun p => ?_, rfl, rfl, rfl⟩
  rw [Compile_error_orMisused, preprocess_orMisused_iff]

/-- C5 counterexample: `compile("a|")` does not fail with
`AlternationMisuse` — the trailing alternation passes preprocessing and
the automaton builder crashes instead. -/
theorem c5_counterexample_trailing_alternation :
    Compile "a|".toList = .error .crashed ∧
    Compile "a|".toList ≠ .error .orMisused :=
  ⟨rfl,
    fun h => CompileErr.noConfusion (Except.error.inj
      (show Except.error CompileErr.crashed = Except.error CompileErr.orMisused from h))⟩

/-- `appendState` only ever appends indices of non-split states. -/
theorem appendState_flat (arena : List NfaState) :
    ∀ (fuel : Nat) (stateList : List Nat) (st : Option Nat) (result : List Nat),
      appendState arena fuel stateList st = some result →
      (∀ i ∈ stateList, FlatState arena i) → ∀ i ∈ result, FlatState arena i := by
  intro fuel
  induction fuel with
  | zero =>
    intro stateList st result h
    exact absurd h (by simp [appendState])
  | succ fuel ih =>
    intro stateList st result h hflat
    cases st with
    | none => exact absurd h (by simp [appendState])
    | some idx =>
      simp only [appendState] at h
      rcases hg : arena[idx]? with - | s
      · simp [hg] at h
      · simp only [hg] at h
        by_cases hk : s.kind = nfaStateKindSplit
        · rw [if_pos hk] at h
          rcases ha : appendState arena fuel stateList s.out1 with - | mid
          · simp [ha] at h
          · simp only [ha] at h
            exact ih mid s.out2 result h (ih stateList s.out1 mid ha hflat)
        · rw [if_neg hk] at h
          have hres : stateList ++ [idx] = result := Option.some.inj h
          intro i hi
          rw [← hres] at hi
          rcases List.mem_append.mp hi with hmem | hmem
          · exact hflat i hmem
          · have heq : i = idx := by simpa using hmem
            exact heq ▸ ⟨s, hg, hk⟩

/-- Writing at a position up to the length keeps all strictly earlier
entries. -/
theorem getElem?_writeAt_lt (buf : List Nat) (pos v j : Nat) (hj : j < pos)
    (hpos : pos ≤ buf.length) : (writeAt buf pos v)[j]? = buf[j]? := by
  unfold writeAt
  by_cases h1 : pos < buf.length
  · rw [if_pos h1]
    exact List.getElem?_set_ne (Nat.ne_of_gt hj)
  · rw [if_neg h1]
    have heq : pos = buf.length := Nat.le_antisymm hpos (Nat.not_lt.mp h1)
    exact List.getElem?_append_left (heq ▸ hj)

/-- Writing at a position up to the length stores the value there. -/
theorem getElem?_writeAt_self (buf : List Nat) (pos v : Nat) (hpos : pos ≤ buf.length) :
    (writeAt buf pos v)[pos]? = some v := by
  unfold writeAt
  by_cases h1 : pos < buf.length
  · rw [if_pos h1]
    exact List.getElem?_set_eq_of_lt v h1
  · rw [if_neg h1]
    have heq : pos = buf.length := Nat.le_antisymm hpos (Nat.not_lt.mp h1)
    rw [heq]
    exact List.getElem?_concat_length buf v

/-- Writing at a position up to the length leaves the position in
bounds. -/
theorem lt_length_writeAt (buf : List Nat) (pos v : Nat) (hpos : pos ≤ buf.length) :
    pos < (writeAt buf pos v).length := by
  unfold writeAt
  by_cases h1 : pos < buf.length
  · rw [if_pos h1]
    simpa using h1
  · rw [if_neg h1]
    simp only [List.length_append, List.length_singleton]
    omega

/-- The shared-buffer `appendState` writes only indices of non-split
states, sequentially from the write position, and never shrinks the
written prefix. -/
theorem appendStateAl_inv (arena : List NfaState) :
    ∀ (fuel : Nat) (buf : List Nat) (w : Nat) (st : Option Nat) (buf2 : List Nat) (w2 : Nat),
      appendStateAl arena fuel buf w st = some (buf2, w2) →
      w ≤ buf.length → PrefixFlat arena buf w →
      w ≤ w2 ∧ w2 ≤ buf2.length ∧ PrefixFlat arena buf2 w2 := by
  intro fuel
  induction fuel with
  | zero =>
    intro buf w st buf2 w2 h
    exact absurd h (by simp [appendStateAl])
  | succ fuel ih =>
    intro buf w st buf2 w2 h hw hpf
    cases st with
    | none => exact absurd h (by simp [appendStateAl])
    | some idx =>
      simp only [appendStateAl] at h
      rcases hg : arena[idx]? with - | s
      · simp [hg] at h
      · simp only [hg] at h
        by_cases hk : s.kind = nfaStateKindSplit
        · rw [if_pos hk] at h
          rcases ha : appendStateAl arena fuel buf w s.out1 with - | mid
          · simp [ha] at h
          · simp only [ha] at h
            obtain ⟨m1, m2⟩ := mid
            obtain ⟨h1, h2, h3⟩ := ih buf w s.out1 m1 m2 ha hw hpf
            obtain ⟨h4, h5, h6⟩ := ih m1 m2 s.out2 buf2 w2 h h2 h3
            exact ⟨Nat.le_trans h1 h4, h5, h6⟩
        · rw [if_neg hk] at h
          have hpair := Option.some.inj h
          have hbuf : buf2 = writeAt buf w idx := (congrArg Prod.fst hpair).symm
          have hw2 : w2 = w + 1 := (congrArg Prod.snd hpair).symm
          subst hbuf hw2
          refine ⟨Nat.le_succ w, lt_length_writeAt buf w idx hw, ?_⟩
          intro j hj
          rcases Nat.lt_succ_iff_lt_or_eq.mp hj with hlt | heq
          · obtain ⟨v, hv, hfl⟩ := hpf j hlt
            exact ⟨v, by rw [getElem?_writeAt_lt buf w idx j hlt hw]; exact hv, hfl⟩
          · subst heq
            exact ⟨idx, getElem?_writeAt_self buf j idx hw, s, hg, hk⟩

/-- One aliased step only ever leaves indices of non-split states in the
written prefix of the buffer. -/
theorem stepAlLoop_inv (arena : List NfaState) (fuel : Nat) (char : Char) :
    ∀ (remaining i : Nat) (buf : List Nat) (w : Nat) (buf2 : List Nat) (w2 : Nat),
      stepAlLoop arena fuel char remaining i buf w = some (buf2, w2) →
      w ≤ buf.length → PrefixFlat arena buf w →
      w2 ≤ buf2.length ∧ PrefixFlat arena buf2 w2 := by
  intro remaining
  induction remaining with
  | zero =>
    intro i buf w buf2 w2 h hw hpf
    simp only [stepAlLoop] at h
    have hpair := Option.some.inj h
    have hbuf : buf2 = buf := (congrArg Prod.fst hpair).symm
    have hw2 : w2 = w := (congrArg Prod.snd hpair).symm
    subst hbuf hw2
    exact ⟨hw, hpf⟩
  | succ remaining ih =>
    intro i buf w buf2 w2 h hw hpf
    simp only [stepAlLoop] at h
    rcases hr : buf[i]? with - | stateIdx
    · simp [hr] at h
    · simp only [hr] at h
      rcases hg : arena[stateIdx]? with - | s
      · simp [hg] at h
      · simp only [hg] at h
        by_cases hc : s.char = char
        · rw [if_pos hc] at h
          rcases ha : appendStateAl arena fuel buf w s.out1 with - | mid
          · simp [ha] at h
          · simp only [ha] at h
            obtain ⟨m1, m2⟩ := mid
            obtain ⟨h1, h2, h3⟩ := appendStateAl_inv arena fuel buf w s.out1 m1 m2 ha hw hpf
            exact ih (i + 1) m1 m2 buf2 w2 h h2 h3
        · rw [if_neg hc] at h
          exact ih (i + 1) buf w buf2 w2 h hw hpf

/-- Membership in a take-prefix comes from an in-range position. -/
theorem exists_getElem?_of_mem_take :
    ∀ (l : List Nat) (w x : Nat), x ∈ l.take w → ∃ j, j < w ∧ l[j]? = some x := by
  intro l
  induction l with
  | nil =>
    intro w x hx
    simp at hx
  | cons a t ih =>
    intro w x hx
    cases w with
    | zero => simp at hx
    | succ w =>
      rcases List.mem_cons.mp (by simpa using hx) with heq | hmem
      · exact ⟨0, Nat.succ_pos w, by simp [heq]⟩
      · obtain ⟨j, hj, hg⟩ := ih w x hmem
        exact ⟨j + 1, Nat.succ_lt_succ hj, by simpa using hg⟩

/-- Every active set recorded after an aliased step consists of non-split
states only. -/
theorem matchLoopTrace_flat (arena : List NfaState) (fuel : Nat) :
    ∀ (chars : List Char) (buf : List Nat) (len : Nat) (sets : List (List Nat)),
      matchLoopTrace arena fuel chars buf len = some sets →
      ∀ l ∈ sets, ∀ i ∈ l, FlatState arena i := by
  intro chars
  induction chars with
  | nil =>
    intro buf len sets h
    simp only [matchLoopTrace] at h
    rw [← Option.some.inj h]
    intro l hl
    simp at hl
  | cons c rest ih =>
    intro buf len sets h
    simp only [matchLoopTrace] at h
    rcases hs : stepAliased arena fuel buf len c with - | pair
    · simp [hs] at h
    · simp only [hs] at h
      obtain ⟨b2, w⟩ := pair
      rcases ht : matchLoopTrace arena fuel rest b2 w with - | sets2
      · simp [ht] at h
      · simp only [ht] at h
        rw [← Option.some.inj h]
        obtain ⟨hlen, hpf⟩ := stepAlLoop_inv arena fuel c len 0 buf 0 b2 w hs
          (Nat.zero_le _) (fun j hj => absurd hj (Nat.not_lt_zero j))
        intro l hl
        rcases List.mem_cons.mp hl with hl1 | hl2
        · subst hl1
          intro i hi
          obtain ⟨j, hj, hg⟩ := exists_getElem?_of_mem_take b2 w i hi
          obtain ⟨v, hv, hfl⟩ := hpf j hj
          have hvi : v = i := by
            rw [hg] at hv
            exact (Option.some.inj hv).symm
          exact hvi ▸ hfl
        · exact ih b2 w sets2 ht l hl2

/-- The first-character step produces only non-split states. -/
theorem stepFreshLoop_flat (arena : List NfaState) (fuel : Nat) (char : Char) :
    ∀ (current nextList result : List Nat),
      stepFreshLoop arena fuel char current nextList = some result →
      (∀ i ∈ nextList, FlatState arena i) → ∀ i ∈ result, FlatState arena i := by
  intro current
  induction current with
  | nil =>
    intro nextList result h hflat
    simp only [stepFreshLoop] at h
    exact (Option.some.inj h) ▸ hflat
  | cons idx rest ih =>
    intro nextList result h hflat
    simp only [stepFreshLoop] at h
    rcases hg : arena[idx]? with - | s
    · simp [hg] at h
    · simp only [hg] at h
      by_cases hc : s.char = char
      · rw [if_pos hc] at h
        rcases ha : appendState arena fuel nextList s.out1 with - | next2
        · simp [ha] at h
        · simp only [ha] at h
          exact ih next2 result h (appendState_flat arena fuel nextList s.out1 next2 ha hflat)
      · rw [if_neg hc] at h
        exact ih nextList result h hflat

/-- Setting an out-arrow does not change any state kind. -/
theorem wellKinded_setOut1 (arena : List NfaState) (i target : Nat) (h : WellKinded arena) :
    WellKinded (setOut1 arena i target) := by
  unfold setOut1
  rcases hg : arena[i]? with - | s
  · exact h
  · intro s2 hs2
    rcases List.mem_or_eq_of_mem_set hs2 with hmem | heq
    · exact h s2 hmem
    · subst heq
      exact h s (List.getElem?_mem hg)

/-- Wiring a fragment does not change any state kind. -/
theorem wellKinded_connectNfaFrag (target : Nat) :
    ∀ (outs : List Nat) (arena : List NfaState), WellKinded arena →
      WellKinded (connectNfaFrag arena ⟨0, outs⟩ target) := by
  intro outs
  induction outs with
  | nil => exact fun arena ha => ha
  | cons o rest ih =>
    intro arena ha
    exact ih (setOut1 arena o target) (wellKinded_setOut1 arena o target ha)

/-- Appending a state of a legal kind preserves well-kindedness. -/
theorem wellKinded_append (arena : List NfaState) (s : NfaState) (h : WellKinded arena)
    (hs : s.kind = nfaStateKindChar ∨ s.kind = nfaStateKindSplit ∨
      s.kind = nfaStateKindMatch) : WellKinded (arena ++ [s]) := by
  intro s2 hs2
  rcases List.mem_append.mp hs2 with hmem | hmem
  · exact h s2 hmem
  · have heq : s2 = s := by simpa using hmem
    exact heq ▸ hs

/-- Every arena the construction loop produces is well-kinded. -/
theorem nfaLoop_wellKinded :
    ∀ (chars : List Char) (arena : List NfaState) (stack : List NfaFrag)
      (arena2 : List NfaState) (stack2 : List NfaFrag),
      nfaLoop arena stack chars = some (arena2, stack2) →
      WellKinded arena → WellKinded arena2 := by
  intro chars
  induction chars with
  | nil =>
    intro arena stack arena2 stack2 h ha
    simp only [nfaLoop] at h
    have hpair := Option.some.inj h
    have harena : arena2 = arena := (congrArg Prod.fst hpair).symm
    exact harena ▸ ha
  | cons c rest ih =>
    intro arena stack arena2 stack2 h ha
    simp only [nfaLoop] at h
    by_cases h1 : c = opAnd
    · rw [if_pos h1] at h
      rcases stack with - | ⟨frag2, stack1⟩
      · simp at h
      · rcases stack1 with - | ⟨frag1, stackRest⟩
        · simp at h
        · have hconn : WellKinded (connectNfaFrag arena ⟨frag1.start, frag1.outs⟩ frag2.start) :=
            wellKinded_connectNfaFrag frag2.start frag1.outs arena ha
          exact ih _ _ _ _ h (by simpa using hconn)
    · rw [if_neg h1] at h
      by_cases h2 : c = opOr
      · rw [if_pos h2] at h
        rcases stack with - | ⟨frag2, stack1⟩
        · simp at h
        · rcases stack1 with - | ⟨frag1, stackRest⟩
          · simp at h
          · exact ih _ _ _ _ h
              (wellKinded_append arena _ ha (Or.inr (Or.inl rfl)))
      · rw [if_neg h2] at h
        exact ih _ _ _ _ h (wellKinded_append arena _ ha (Or.inl rfl))

/-- The empty arena is well-kinded. -/
theorem wellKinded_nil : WellKinded ([] : List NfaState) := by
  intro s hs
  simp at hs

/-- Every automaton `nfa` returns has a well-kinded arena. -/
theorem nfa_wellKinded (str : List Char) (arena : List NfaState) (start : Nat)
    (h : nfa str = some (arena, start)) : WellKinded arena := by
  unfold nfa at h
  rcases hl : nfaLoop [] [] str with - | p
  · simp [hl] at h
  · simp only [hl] at h
    obtain ⟨arenaL, stackL⟩ := p
    rcases stackL with - | ⟨result, restStack⟩
    · simp at h
    · have hpair := Option.some.inj h
      have harena : arena =
          connectNfaFrag
            (arenaL ++ [{ char := zeroRune, kind := nfaStateKindMatch, out1 := none, out2 := none }])
            result arenaL.length := (congrArg Prod.fst hpair).symm
      have hL : WellKinded arenaL := nfaLoop_wellKinded str [] [] arenaL (result :: restStack) hl wellKinded_nil
      have hA : WellKinded
          (arenaL ++ [{ char := zeroRune, kind := nfaStateKindMatch, out1 := none, out2 := none }]) :=
        wellKinded_append arenaL _ hL (Or.inr (Or.inr rfl))
      have hC := wellKinded_connectNfaFrag arenaL.length result.outs _ hA
      rw [harena]
      have hfrag : (⟨result.start, result.outs⟩ : NfaFrag) = result := rfl
      simpa [hfrag] using hC

/-- Every automaton `Compile` returns has a well-kinded arena. -/
theorem Compile_wellKinded (p : List Char) (arena : List NfaState) (start : Nat)
    (h : Compile p = .ok (arena, start)) : WellKinded arena := by
  unfold Compile at h
  rcases hp : preprocess p with e | marked
  · cases e <;> simp [hp] at h
  · simp only [hp] at h
    rcases hr : rpn marked with - | pf
    · simp [hr] at h
    · simp only [hr] at h
      rcases hn : nfa pf with - | automaton
      · simp [hn] at h
      · simp only [hn] at h
        obtain ⟨a2, s2⟩ := automaton
        have ha : a2 = arena := congrArg Prod.fst (Except.ok.inj h)
        exact ha ▸ nfa_wellKinded pf a2 s2 hn

/-- C8: throughout every completed run of `match` — on any automaton the
compiler can produce (first conjunct: compiled arenas are well-kinded) —
every active state set in the run's trace contains only indices of
char-consuming and match states, never a split state: `appendState`
replaces any split state by the recursive expansion of both its children
before it enters the set. -/
theorem c8_active_sets_never_contain_split :
    (∀ (p : List Char) (arena : List NfaState) (start : Nat),
        Compile p = .ok (arena, start) → WellKinded arena) ∧
    (∀ (arena : List NfaState) (start : Nat) (str : List Char) (sets : List (List Nat)),
        matchTrace arena start str = some sets → WellKinded arena →
        ∀ l ∈ sets, ∀ i ∈ l, ∃ s, arena[i]? = some s ∧ s.kind ≠ nfaStateKindSplit ∧
          (s.kind = nfaStateKindChar ∨ s.kind = nfaStateKindMatch)) := by
  constructor
  · exact Compile_wellKinded
  · intro arena start str sets h hwk
    have conv : ∀ i, FlatState arena i → ∃ s, arena[i]? = some s ∧
        s.kind ≠ nfaStateKindSplit ∧
        (s.kind = nfaStateKindChar ∨ s.kind = nfaStateKindMatch) := by
      rintro i ⟨s, hg, hk⟩
      refine ⟨s, hg, hk, ?_⟩
      rcases hwk s (List.getElem?_mem hg) with h1 | h1 | h1
      · exact Or.inl h1
      · exact absurd h1 hk
      · exact Or.inr h1
    suffices hflat : ∀ l ∈ sets, ∀ i ∈ l, FlatState arena i by
      intro l hl i hi
      exact conv i (hflat l hl i hi)
    simp only [matchTrace] at h
    rcases h0 : appendState arena (arena.length + 1) [] (some start) with - | current0
    · simp [h0] at h
    · simp only [h0] at h
      have hflat0 : ∀ i ∈ current0, FlatState arena i :=
        appendState_flat arena (arena.length + 1) [] (some start) current0 h0
          (by intro i hi; simp at hi)
      cases str with
      | nil =>
        rw [← Option.some.inj h]
        intro l hl
        have hlc : l = current0 := by simpa using hl
        exact hlc ▸ hflat0
      | cons c1 rest =>
        rcases h1 : stepFresh arena (arena.length + 1) current0 c1 with - | next1
        · simp [h1] at h
        · simp only [h1] at h
          rcases h2 : matchLoopTrace arena (arena.length + 1) rest next1 next1.length
            with - | sets2
          · simp [h2] at h
          · simp only [h2] at h
            rw [← Option.some.inj h]
            have hflat1 : ∀ i ∈ next1, FlatState arena i :=
              stepFreshLoop_flat arena (arena.length + 1) c1 current0 [] next1 h1
                (by intro i hi; simp at hi)
            intro l hl
            rcases List.mem_cons.mp hl with hla | hl2
            · exact hla ▸ hflat0
            · rcases List.mem_cons.mp hl2 with hlb | hl3
              · exact hlb ▸ hflat1
              · exact matchLoopTrace_flat arena (arena.length + 1) rest next1 next1.length
                  sets2 h2 l hl3

/-- C8 witness: the run of `compile("ab|c")` on `"ab"` has trace
`[[0, 2], [1], [4]]`, and its entries are char or match states. -/
theorem c8_witness :
    WellKinded (compiledArena "ab|c".toList) ∧
    (∃ s, (compiledArena "ab|c".toList)[0]? = some s ∧ s.kind ≠ nfaStateKindSplit ∧
      (s.kind = nfaStateKindChar ∨ s.kind = nfaStateKindMatch)) :=
  ⟨c8_active_sets_never_contain_split.1 "ab|c".toList (compiledArena "ab|c".toList)
      (compiledStart "ab|c".toList) rfl,
    c8_active_sets_never_contain_split.2 (compiledArena "ab|c".toList)
      (compiledStart "ab|c".toList) "ab".toList [[0, 2], [1], [4]] rfl
      (c8_active_sets_never_contain_split.1 "ab|c".toList (compiledArena "ab|c".toList)
        (compiledStart "ab|c".toList) rfl)
      [0, 2] (by simp) 0 (by simp)⟩

/-- The recording loop runs the same computation as `matchLoop`: they
crash together, and on success the last recorded set is the final active
set. -/
theorem matchLoop_matchLoopTrace (arena : List NfaState) (fuel : Nat) :
    ∀ (chars : List Char) (buf : List Nat) (len : Nat),
      (matchLoop arena fuel chars buf len = none ∧
        matchLoopTrace arena fuel chars buf len = none) ∨
      (∃ buf2 len2 sets, matchLoop arena fuel chars buf len = some (buf2, len2) ∧
        matchLoopTrace arena fuel chars buf len = some sets ∧
        (buf.take len :: sets).getLast? = some (buf2.take len2)) := by
  intro chars
  induction chars with
  | nil =>
    intro buf len
    exact Or.inr ⟨buf, len, [], rfl, rfl, by simp⟩
  | cons c rest ih =>
    intro buf len
    rcases hs : stepAliased arena fuel buf len c with - | pair
    · exact Or.inl ⟨by simp [matchLoop, hs], by simp [matchLoopTrace, hs]⟩
    · obtain ⟨b2, w⟩ := pair
      rcases ih b2 w with ⟨hm, ht⟩ | ⟨bf, lf, sets, hm, ht, hl⟩
      · exact Or.inl ⟨by simp [matchLoop, hs, hm], by simp [matchLoopTrace, hs, ht]⟩
      · refine Or.inr ⟨bf, lf, b2.take w :: sets, by simp [matchLoop, hs, hm],
          by simp [matchLoopTrace, hs, ht], ?_⟩
        rw [List.getLast?_cons_cons]
        exact hl

/-- `match` computes exactly the final-set test of the recorded run:
`matchTrace` is the same computation with its intermediate active sets
exposed. -/
theorem matchNfa_eq_matchTrace (arena : List NfaState) (start : Nat) (str : List Char) :
    matchNfa arena start str =
      (matchTrace arena start str).map
        (fun sets => containsMatchState arena (sets.getLast?.getD [])) := by
  unfold matchNfa matchTrace
  rcases h0 : appendState arena (arena.length + 1) [] (some start) with - | current0
  · simp [h0]
  · simp only [h0]
    cases str with
    | nil => simp
    | cons c1 rest =>
      rcases h1 : stepFresh arena (arena.length + 1) current0 c1 with - | next1
      · simp [h1]
      · simp only [h1]
        rcases matchLoop_matchLoopTrace arena (arena.length + 1) rest next1 next1.length
          with ⟨hm, ht⟩ | ⟨bf, lf, sets, hm, ht, hl⟩
        · simp [hm, ht]
        · rw [List.take_length] at hl
          simp only [hm, ht]
          simp [List.getLast?_cons_cons, hl]

end RegexGo
